import Mathlib

/-!
Verification of the commandor command launcher: the command-history ledger
(`updateCommandHistory`, `deleteCommand`, `clearHistory`, `loadCommandHistory`)
and the execution pipeline (command-line composition and outcome
classification in `executeCommand`), shallowly embedded from
`src/components/Commander.tsx` (the file also present as `src/unnamed/part_000`;
all variant files in the repository contain the same logic).
-/

namespace Commandor

open scoped List

/-- One entry of the history ledger, from the `CommandHistory` interface in
`src/types`: the exact command text (identity key), the epoch-millisecond
timestamp of the most recent run, the total number of runs, and the optional
captured output, error text and working directory of the most recent run. -/
structure CommandHistory where
  command : String
  lastUsed : Nat
  useCount : Nat
  output : Option String
  error : Option String
  executionPath : Option String
deriving DecidableEq, Repr

/-- The read-only preference surface, from the `Preferences` interface in
`src/types`. -/
structure Preferences where
  maxHistorySize : Nat
  defaultShell : String
  shellProfile : String
  debugMode : Bool
deriving DecidableEq, Repr

/-- Lines 77-99 of `updateCommandHistory`: `findIndex` of the first record
whose `command` field equals the given command exactly; if found, that record
is replaced in place by a copy with `lastUsed := now`, `useCount`
incremented, and `output`/`error`/`executionPath` overwritten by the new
values (absent values overwrite to absent); otherwise a fresh record with
`useCount = 1` is pushed at the end. -/
def upsertEntry (command : String) (output error executionPath : Option String)
    (now : Nat) : List CommandHistory → List CommandHistory
  | [] => [{ command := command, lastUsed := now, useCount := 1,
             output := output, error := error, executionPath := executionPath }]
  | item :: rest =>
    if item.command = command then
      { command := item.command, lastUsed := now, useCount := item.useCount + 1,
        output := output, error := error, executionPath := executionPath } :: rest
    else
      item :: upsertEntry command output error executionPath now rest

/-- One step of the stable descending insertion used to model line 102:
walk past every element whose `lastUsed` is at least the new entry's
(so ties keep the earlier element first) and insert before the first
strictly older element. -/
def insertByLastUsedDesc (entry : CommandHistory) :
    List CommandHistory → List CommandHistory
  | [] => [entry]
  | item :: rest =>
    if entry.lastUsed ≤ item.lastUsed then item :: insertByLastUsedDesc entry rest
    else entry :: item :: rest

/-- Line 102: `newHistory.sort((a, b) => b.lastUsed - a.lastUsed)`.
ECMAScript `Array.prototype.sort` is stable, so the result is the stable
descending reordering by `lastUsed`, modelled here as a stable insertion
sort processing the array left to right. -/
def sortByLastUsedDesc (history : List CommandHistory) : List CommandHistory :=
  history.foldl (fun sorted entry => insertByLastUsedDesc entry sorted) []

/-- Lines 72-111, `updateCommandHistory` (the ledger `upsert`): update or
insert the record (lines 77-99), sort by `lastUsed` descending (line 102),
then `splice(maxHistorySize)` - truncate to the first `maxHistorySize`
records - when the length exceeds the bound (lines 105-107). -/
def updateCommandHistory (maxHistorySize : Nat) (history : List CommandHistory)
    (command : String) (output error executionPath : Option String)
    (now : Nat) : List CommandHistory :=
  let newHistory := upsertEntry command output error executionPath now history
  let sorted := sortByLastUsedDesc newHistory
  if maxHistorySize < sorted.length then sorted.take maxHistorySize else sorted

/-- The records cut off by the `splice(maxHistorySize)` truncation of a
single upsert: the part of the sorted sequence past the bound (empty when
the bound is not exceeded). -/
def evictedByUpsert (maxHistorySize : Nat) (history : List CommandHistory)
    (command : String) (output error executionPath : Option String)
    (now : Nat) : List CommandHistory :=
  (sortByLastUsedDesc (upsertEntry command output error executionPath now history)).drop
    maxHistorySize

/-- Lines 265-268 of `deleteCommand` (the ledger `remove`), confirmed branch:
`commandHistory.filter((item) => item.command !== command)`. -/
def deleteCommand (history : List CommandHistory) (command : String) :
    List CommandHistory :=
  history.filter (fun item => item.command != command)

/-- Lines 270-274 of `deleteCommand`: after filtering, the code
unconditionally shows the success toast "Command deleted from history" and
returns no value, so the deletion signal reported to the caller does not
depend on whether any record matched. -/
def deleteCommandReportedDeleted (_history : List CommandHistory)
    (_command : String) : Bool := true

/-- Line 288 of `clearHistory`, confirmed branch: `setCommandHistory([])`. -/
def clearHistory : List CommandHistory := []

/-- A JavaScript value produced by a successful `JSON.parse`: the parser
can succeed with any JSON shape - null, booleans, numbers, strings,
arbitrary arrays or objects - not only with an array of records. Numbers
are modelled as integers, enough to represent wrong-shape stored values. -/
inductive JsonValue where
  | null
  | bool (b : Bool)
  | num (n : Int)
  | str (s : String)
  | arr (elems : List JsonValue)
  | obj (fields : List (String × JsonValue))
deriving Repr

/-- Lines 53-62, `loadCommandHistory`: read the persisted string under the
`commandHistory` key. A missing or empty (falsy) value leaves the initial
empty ledger (the empty array value), and a `JSON.parse` throw on invalid
JSON is caught and also leaves it; but a successful parse is installed
verbatim by `setCommandHistory` with no shape validation, so the loaded
state is whatever JavaScript value the parser produced. The external
parser is abstracted as a function into `Option JsonValue`, `none`
meaning a throw. -/
def loadCommandHistory (parseJson : String → Option JsonValue)
    (stored : Option String) : JsonValue :=
  match stored with
  | none => JsonValue.arr []
  | some raw =>
    if raw = "" then JsonValue.arr []
    else
      match parseJson raw with
      | some v => v
      | none => JsonValue.arr []

/-- A single `upsert` call: the arguments of `updateCommandHistory` plus the
`Date.now()` timestamp taken at its start. -/
structure UpsertCall where
  command : String
  output : Option String
  error : Option String
  executionPath : Option String
  now : Nat
deriving DecidableEq, Repr

/-- A ledger mutation: `updateCommandHistory`, the confirmed branch of
`deleteCommand`, or the confirmed branch of `clearHistory`. -/
inductive LedgerOp where
  | upsert (call : UpsertCall)
  | remove (command : String)
  | clear
deriving DecidableEq, Repr

/-- Apply one upsert call to the in-memory ledger. -/
def applyUpsert (maxHistorySize : Nat) (history : List CommandHistory)
    (call : UpsertCall) : List CommandHistory :=
  updateCommandHistory maxHistorySize history call.command call.output
    call.error call.executionPath call.now

/-- Apply a sequence of upsert calls left to right. -/
def applyUpserts (maxHistorySize : Nat) (history : List CommandHistory)
    (calls : List UpsertCall) : List CommandHistory :=
  calls.foldl (applyUpsert maxHistorySize) history

/-- Apply one ledger mutation. -/
def applyLedgerOp (maxHistorySize : Nat) (history : List CommandHistory) :
    LedgerOp → List CommandHistory
  | .upsert call => applyUpsert maxHistorySize history call
  | .remove command => deleteCommand history command
  | .clear => clearHistory

/-- Apply a sequence of ledger mutations left to right. -/
def applyLedgerOps (maxHistorySize : Nat) (history : List CommandHistory)
    (ops : List LedgerOp) : List CommandHistory :=
  ops.foldl (applyLedgerOp maxHistorySize) history

/-- ECMAScript `String.prototype.trim`: strip leading and trailing
whitespace. Modelled directly on the character list so that it evaluates
inside the kernel. -/
def jsTrim (s : String) : String :=
  ⟨((s.data.dropWhile Char.isWhitespace).reverse.dropWhile Char.isWhitespace).reverse⟩

/-- Whether `needle` occurs contiguously inside the character list. -/
def listHasInfix (needle : List Char) : List Char → Bool
  | [] => needle.isEmpty
  | c :: rest => needle.isPrefixOf (c :: rest) || listHasInfix needle rest

/-- ECMAScript `String.prototype.includes`: exact contiguous substring
test, used by lines 134 and 136 on `preferences.defaultShell`. -/
def strIncludes (s sub : String) : Bool := listHasInfix sub.data s.data

/-- Lines 127-139 of `executeCommand`: the shell-initialization layer of the
composed command line. A non-empty (after trimming) `shellProfile` wins;
otherwise a shell whose path contains "zsh" sources `~/.zshrc` with stderr
suppressed followed by `;`; otherwise a shell whose path contains "bash"
tries `~/.bash_profile` else `~/.bashrc`, also suppressed, followed by `;`;
otherwise the raw command is used. -/
def shellInitCommand (prefs : Preferences) (command : String) : String :=
  if jsTrim prefs.shellProfile ≠ "" then
    "source " ++ prefs.shellProfile ++ " && " ++ command
  else if strIncludes prefs.defaultShell "zsh" then
    "source ~/.zshrc 2>/dev/null; " ++ command
  else if strIncludes prefs.defaultShell "bash" then
    "source ~/.bash_profile 2>/dev/null || source ~/.bashrc 2>/dev/null; " ++ command
  else
    command

/-- Lines 127-148 of `executeCommand`: the full composed command line. When
the inferred Finder path is present and non-empty after trimming, a
`cd "<path>" && ` step is prepended in front of the shell-initialized
command (lines 142-144). -/
def buildFinalCommand (prefs : Preferences) (command : String)
    (finderPath : Option String) : String :=
  match finderPath with
  | some dir =>
    if jsTrim dir ≠ "" then "cd \"" ++ dir ++ "\" && " ++ shellInitCommand prefs command
    else shellInitCommand prefs command
  | none => shellInitCommand prefs command

/-- Line 159: the `timeout: 30000` option handed to the exec layer. -/
def executeTimeoutMillis : Nat := 30000

/-- How the promisified `exec` call on line 157 can complete: resolve with
the two captured streams on a zero exit, reject with an `Error` (non-zero
exit, spawn error, or the enforced 30-second timeout, which kills the
process; `isTimeout` records which of these happened inside the exec
layer), or reject with a non-`Error` value. -/
inductive ExecResult where
  | resolved (stdout stderr : String)
  | rejectedError (isTimeout : Bool) (message : String)
  | rejectedNonError
deriving DecidableEq, Repr

/-- Modelled from the spec: the message of the `Error` a failed Node
`child_process` invocation rejects with (this text is composed by the
external exec layer, not by code in this repository) - stderr content is
preferred when present, else the generic failure description. -/
def processErrorText (genericDescription stderrText : String) : String :=
  if stderrText = "" then genericDescription else stderrText

/-- The result of one execution attempt as it reaches the history update
and the toasts: `succeeded` is true exactly when the `try` block of
`executeCommand` completes (zero exit), and the remaining fields are the
arguments passed to `updateCommandHistory` on lines 191 and 229. -/
structure ExecutionOutcome where
  succeeded : Bool
  output : Option String
  error : Option String
  executionPath : Option String
deriving DecidableEq, Repr

/-- JavaScript `value || undefined` on an optional string: an absent or
empty (falsy) string becomes absent. Used for `finderPath || undefined`
on line 191. -/
def jsStringOrNone (value : Option String) : Option String :=
  match value with
  | some s => if s = "" then none else some s
  | none => none

/-- Lines 157-249 of `executeCommand`, outcome classification: a resolved
call records `stdout` and `stderr` (both, even when `stderr` is non-empty -
the "completed with warnings" case on lines 178-183 - and the empty
`stderr` string when there were no warnings) together with the Finder path;
a rejection is caught on line 212, records `errorMessage` -
`error instanceof Error ? error.message : "Unknown error"` - and no output,
identically for timeouts and ordinary failures. -/
def classifyExecResult (finderPath : Option String) :
    ExecResult → ExecutionOutcome
  | .resolved stdout stderr =>
    { succeeded := true, output := some stdout, error := some stderr,
      executionPath := jsStringOrNone finderPath }
  | .rejectedError _ message =>
    { succeeded := false, output := none, error := some message,
      executionPath := none }
  | .rejectedNonError =>
    { succeeded := false, output := none, error := some "Unknown error",
      executionPath := none }

/-- The `command` key of each record, in sequence order. -/
def commandKeys (history : List CommandHistory) : List String :=
  history.map (fun item => item.command)

/-- `a` is at least as recently used as `b`. -/
def moreRecentOrEq (a b : CommandHistory) : Prop := b.lastUsed ≤ a.lastUsed

/-- The sequence is ordered by `lastUsed` descending (most recent first),
the order produced by the comparator on line 102. -/
def sortedByLastUsedDesc (history : List CommandHistory) : Prop :=
  history.Pairwise moreRecentOrEq

/-! ### Helper lemmas about the stable descending sort -/

theorem commandKeys_def (l : List CommandHistory) :
    commandKeys l = l.map (fun item => item.command) := rfl

theorem commandKeys_cons (item : CommandHistory) (rest : List CommandHistory) :
    commandKeys (item :: rest) = item.command :: commandKeys rest := rfl

theorem mem_commandKeys {s : String} {l : List CommandHistory} :
    s ∈ commandKeys l ↔ ∃ r ∈ l, r.command = s := by
  simp [commandKeys_def, List.mem_map]

theorem insertByLastUsedDesc_perm (entry : CommandHistory)
    (l : List CommandHistory) : insertByLastUsedDesc entry l ~ entry :: l := by
  induction l with
  | nil => exact List.Perm.refl _
  | cons item rest ih =>
    by_cases h : entry.lastUsed ≤ item.lastUsed
    · simp only [insertByLastUsedDesc, if_pos h]
      exact (ih.cons item).trans (List.Perm.swap entry item rest)
    · simp only [insertByLastUsedDesc, if_neg h]
      exact List.Perm.refl _

theorem foldl_insertByLastUsedDesc_perm (l acc : List CommandHistory) :
    l.foldl (fun sorted entry => insertByLastUsedDesc entry sorted) acc
      ~ acc ++ l := by
  induction l generalizing acc with
  | nil => simp
  | cons x xs ih =>
    simp only [List.foldl_cons]
    refine (ih (insertByLastUsedDesc x acc)).trans ?_
    refine ((insertByLastUsedDesc_perm x acc).append_right xs).trans ?_
    exact List.perm_middle.symm

theorem sortByLastUsedDesc_perm (l : List CommandHistory) :
    sortByLastUsedDesc l ~ l := by
  simpa using foldl_insertByLastUsedDesc_perm l []

theorem insertByLastUsedDesc_sorted {l : List CommandHistory}
    (entry : CommandHistory) (h : sortedByLastUsedDesc l) :
    sortedByLastUsedDesc (insertByLastUsedDesc entry l) := by
  induction l with
  | nil => simp [insertByLastUsedDesc, sortedByLastUsedDesc]
  | cons item rest ih =>
    rcases List.pairwise_cons.mp h with ⟨hitem, hrest⟩
    by_cases hle : entry.lastUsed ≤ item.lastUsed
    · simp only [insertByLastUsedDesc, if_pos hle]
      refine List.pairwise_cons.mpr ⟨?_, ih hrest⟩
      intro b hb
      rcases List.mem_cons.mp ((insertByLastUsedDesc_perm entry rest).mem_iff.mp hb) with
        hbe | hbr
      · subst hbe; exact hle
      · exact hitem b hbr
    · simp only [insertByLastUsedDesc, if_neg hle]
      refine List.pairwise_cons.mpr ⟨?_, h⟩
      intro b hb
      have hlt : item.lastUsed ≤ entry.lastUsed :=
        Nat.le_of_lt (Nat.lt_of_not_le hle)
      rcases List.mem_cons.mp hb with hbe | hbr
      · subst hbe; exact hlt
      · exact Nat.le_trans (hitem b hbr) hlt

theorem foldl_insertByLastUsedDesc_sorted (l : List CommandHistory)
    {acc : List CommandHistory} (h : sortedByLastUsedDesc acc) :
    sortedByLastUsedDesc
      (l.foldl (fun sorted entry => insertByLastUsedDesc entry sorted) acc) := by
  induction l generalizing acc with
  | nil => simpa using h
  | cons x xs ih => exact ih (insertByLastUsedDesc_sorted x h)

theorem sortByLastUsedDesc_sorted (l : List CommandHistory) :
    sortedByLastUsedDesc (sortByLastUsedDesc l) :=
  foldl_insertByLastUsedDesc_sorted l (by simp [sortedByLastUsedDesc])

theorem updateCommandHistory_eq_take (max : Nat) (hist : List CommandHistory)
    (c : String) (o e p : Option String) (now : Nat) :
    updateCommandHistory max hist c o e p now
      = (sortByLastUsedDesc (upsertEntry c o e p now hist)).take max := by
  unfold updateCommandHistory
  by_cases h : max < (sortByLastUsedDesc (upsertEntry c o e p now hist)).length
  · simp [h]
  · simp [h, List.take_of_length_le (Nat.le_of_not_lt h)]

/-! ### Helper lemmas about the update-or-insert step -/

theorem exists_mem_upsertEntry (c : String) (o e p : Option String)
    (now : Nat) (l : List CommandHistory) :
    ∃ r ∈ upsertEntry c o e p now l, r.command = c ∧ r.lastUsed = now := by
  induction l with
  | nil => exact ⟨_, List.mem_singleton_self _, rfl, rfl⟩
  | cons item rest ih =>
    by_cases h : item.command = c
    · simp only [upsertEntry, if_pos h]
      exact ⟨_, List.mem_cons_self _ _, h, rfl⟩
    · simp only [upsertEntry, if_neg h]
      obtain ⟨r, hr, hrc, hrn⟩ := ih
      exact ⟨r, List.mem_cons_of_mem _ hr, hrc, hrn⟩

theorem mem_upsertEntry_cases {c : String} {o e p : Option String} {now : Nat}
    {l : List CommandHistory} {r : CommandHistory}
    (h : r ∈ upsertEntry c o e p now l) :
    r ∈ l ∨ (r.command = c ∧ r.lastUsed = now) := by
  induction l with
  | nil =>
    simp only [upsertEntry, List.mem_singleton] at h
    subst h; exact Or.inr ⟨rfl, rfl⟩
  | cons item rest ih =>
    by_cases hc : item.command = c
    · simp only [upsertEntry, if_pos hc] at h
      rcases List.mem_cons.mp h with rfl | h2
      · exact Or.inr ⟨hc, rfl⟩
      · exact Or.inl (List.mem_cons_of_mem _ h2)
    · simp only [upsertEntry, if_neg hc] at h
      rcases List.mem_cons.mp h with rfl | h2
      · exact Or.inl (List.mem_cons_self _ _)
      · rcases ih h2 with h3 | h3
        · exact Or.inl (List.mem_cons_of_mem _ h3)
        · exact Or.inr h3

theorem mem_upsertEntry_of_ne {c : String} {o e p : Option String} {now : Nat}
    {l : List CommandHistory} {r : CommandHistory} (hr : r ∈ l)
    (hne : r.command ≠ c) : r ∈ upsertEntry c o e p now l := by
  induction l with
  | nil => cases hr
  | cons item rest ih =>
    by_cases h : item.command = c
    · simp only [upsertEntry, if_pos h]
      rcases List.mem_cons.mp hr with rfl | hr2
      · exact absurd h hne
      · exact List.mem_cons_of_mem _ hr2
    · simp only [upsertEntry, if_neg h]
      rcases List.mem_cons.mp hr with rfl | hr2
      · exact List.mem_cons_self _ _
      · exact List.mem_cons_of_mem _ (ih hr2)

theorem mem_of_mem_upsertEntry_ne {c : String} {o e p : Option String}
    {now : Nat} {l : List CommandHistory} {r : CommandHistory}
    (hr : r ∈ upsertEntry c o e p now l) (hne : r.command ≠ c) : r ∈ l := by
  rcases mem_upsertEntry_cases hr with h | h
  · exact h
  · exact absurd h.1 hne

theorem upsertEntry_of_forall_ne {c : String} {o e p : Option String}
    {now : Nat} {l : List CommandHistory} (h : ∀ r ∈ l, r.command ≠ c) :
    upsertEntry c o e p now l
      = l ++ [{ command := c, lastUsed := now, useCount := 1,
                output := o, error := e, executionPath := p }] := by
  induction l with
  | nil => rfl
  | cons item rest ih =>
    have hne : item.command ≠ c := h item (List.mem_cons_self _ _)
    simp only [upsertEntry, if_neg hne, List.cons_append]
    rw [ih fun r hr => h r (List.mem_cons_of_mem _ hr)]

theorem upsertEntry_length_of_found {c : String} {o e p : Option String}
    {now : Nat} {l : List CommandHistory} (h : ∃ r ∈ l, r.command = c) :
    (upsertEntry c o e p now l).length = l.length := by
  induction l with
  | nil => simp at h
  | cons item rest ih =>
    by_cases hc : item.command = c
    · simp [upsertEntry, hc]
    · obtain ⟨r, hr, hrc⟩ := h
      have hr2 : r ∈ rest := by
        rcases List.mem_cons.mp hr with rfl | h2
        · exact absurd hrc hc
        · exact h2
      simp [upsertEntry, hc, ih ⟨r, hr2, hrc⟩]

theorem upsertEntry_found_update {c : String} {o e p : Option String}
    {now : Nat} {l : List CommandHistory} {r : CommandHistory}
    (hnodup : (commandKeys l).Nodup) (hr : r ∈ l) (hrc : r.command = c) :
    ∀ r2 ∈ upsertEntry c o e p now l, r2.command = c →
      r2 = { command := c, lastUsed := now, useCount := r.useCount + 1,
             output := o, error := e, executionPath := p } := by
  induction l with
  | nil => cases hr
  | cons item rest ih =>
    rw [commandKeys_cons] at hnodup
    rcases List.nodup_cons.mp hnodup with ⟨hnotin, hnd⟩
    by_cases hc : item.command = c
    · have hri : r = item := by
        rcases List.mem_cons.mp hr with rfl | hr2
        · rfl
        · exact absurd (mem_commandKeys.mpr ⟨r, hr2, hrc.trans hc.symm⟩) hnotin
      intro r2 h2 h2c
      simp only [upsertEntry, if_pos hc] at h2
      rcases List.mem_cons.mp h2 with rfl | h2r
      · simp [hc, hri]
      · exact absurd (mem_commandKeys.mpr ⟨r2, h2r, h2c.trans hc.symm⟩) hnotin
    · have hr2 : r ∈ rest := by
        rcases List.mem_cons.mp hr with rfl | h2
        · exact absurd hrc hc
        · exact h2
      intro r2 h2 h2c
      simp only [upsertEntry, if_neg hc] at h2
      rcases List.mem_cons.mp h2 with rfl | h2r
      · exact absurd h2c hc
      · exact ih hnd hr2 r2 h2r h2c

theorem upsertEntry_not_found_new {c : String} {o e p : Option String}
    {now : Nat} {l : List CommandHistory} (h : ∀ r ∈ l, r.command ≠ c) :
    ∀ r2 ∈ upsertEntry c o e p now l, r2.command = c →
      r2 = { command := c, lastUsed := now, useCount := 1,
             output := o, error := e, executionPath := p } := by
  intro r2 h2 h2c
  rw [upsertEntry_of_forall_ne h] at h2
  rcases List.mem_append.mp h2 with h2l | h2r
  · exact absurd h2c (h r2 h2l)
  · simpa using h2r

theorem commandKeys_upsertEntry_found {c : String} {o e p : Option String}
    {now : Nat} {l : List CommandHistory} (h : ∃ r ∈ l, r.command = c) :
    commandKeys (upsertEntry c o e p now l) = commandKeys l := by
  induction l with
  | nil => simp at h
  | cons item rest ih =>
    by_cases hc : item.command = c
    · simp [upsertEntry, hc, commandKeys_cons]
    · obtain ⟨r, hr, hrc⟩ := h
      have hr2 : r ∈ rest := by
        rcases List.mem_cons.mp hr with rfl | h2
        · exact absurd hrc hc
        · exact h2
      simp [upsertEntry, hc, commandKeys_cons, ih ⟨r, hr2, hrc⟩]

theorem nodup_commandKeys_upsertEntry {c : String} {o e p : Option String}
    {now : Nat} {l : List CommandHistory} (h : (commandKeys l).Nodup) :
    (commandKeys (upsertEntry c o e p now l)).Nodup := by
  by_cases hc : ∃ r ∈ l, r.command = c
  · rw [commandKeys_upsertEntry_found hc]; exact h
  · push_neg at hc
    rw [upsertEntry_of_forall_ne hc]
    have hkeys : commandKeys
        (l ++ [{ command := c, lastUsed := now, useCount := 1,
                 output := o, error := e, executionPath := p }])
        = commandKeys l ++ [c] := by
      simp [commandKeys_def]
    rw [hkeys]
    have hcnotin : c ∉ commandKeys l := by
      intro hmem
      obtain ⟨r, hr, hrc⟩ := mem_commandKeys.mp hmem
      exact hc r hr hrc
    exact (List.perm_append_singleton c (commandKeys l)).symm.nodup
      (List.nodup_cons.mpr ⟨hcnotin, h⟩)

theorem nodup_commandKeys_of_sublist {l₁ l₂ : List CommandHistory}
    (s : l₁ <+ l₂) (h : (commandKeys l₂).Nodup) : (commandKeys l₁).Nodup := by
  rw [commandKeys_def] at h ⊢
  exact (s.map _).nodup h

theorem nodup_commandKeys_of_perm {l₁ l₂ : List CommandHistory}
    (hp : l₁ ~ l₂) (h : (commandKeys l₁).Nodup) : (commandKeys l₂).Nodup := by
  rw [commandKeys_def] at h ⊢
  exact (hp.map _).nodup h

theorem countP_command_le_one {l : List CommandHistory}
    (h : (commandKeys l).Nodup) (c : String) :
    l.countP (fun r => r.command == c) ≤ 1 := by
  induction l with
  | nil => simp
  | cons item rest ih =>
    rw [commandKeys_cons] at h
    rcases List.nodup_cons.mp h with ⟨hnotin, hnd⟩
    by_cases hc : item.command = c
    · rw [List.countP_cons_of_pos _ _ (by simpa using hc)]
      have hzero : rest.countP (fun r => r.command == c) = 0 := by
        rw [List.countP_eq_zero]
        intro a ha hbeq
        exact hnotin
          (mem_commandKeys.mpr ⟨a, ha, (by simpa using hbeq : a.command = c).trans hc.symm⟩)
      rw [hzero]
    · rw [List.countP_cons_of_neg _ _ (by simpa using hc)]
      exact ih hnd

/-! ### Further helper lemmas about `updateCommandHistory` -/

theorem length_updateCommandHistory_le (max : Nat) (hist : List CommandHistory)
    (c : String) (o e p : Option String) (now : Nat) :
    (updateCommandHistory max hist c o e p now).length ≤ max := by
  rw [updateCommandHistory_eq_take, List.length_take]
  exact Nat.min_le_left _ _

theorem length_applyUpsert_le (max : Nat) (hist : List CommandHistory)
    (call : UpsertCall) : (applyUpsert max hist call).length ≤ max :=
  length_updateCommandHistory_le max hist call.command call.output call.error
    call.executionPath call.now

theorem length_applyUpserts_le (max : Nat) (calls : List UpsertCall) :
    ∀ hist : List CommandHistory, hist.length ≤ max →
      (applyUpserts max hist calls).length ≤ max := by
  induction calls with
  | nil => intro hist h; simpa [applyUpserts] using h
  | cons x xs ih =>
    intro hist _
    have hx : (applyUpsert max hist x).length ≤ max := length_applyUpsert_le max hist x
    simpa [applyUpserts, List.foldl_cons] using ih (applyUpsert max hist x) hx

theorem evicted_le_kept (max : Nat) (hist : List CommandHistory) (c : String)
    (o e p : Option String) (now : Nat) :
    ∀ r ∈ evictedByUpsert max hist c o e p now,
      ∀ r2 ∈ updateCommandHistory max hist c o e p now,
        r.lastUsed ≤ r2.lastUsed := by
  intro r hr r2 hr2
  rw [updateCommandHistory_eq_take] at hr2
  simp only [evictedByUpsert] at hr
  have hs : sortedByLastUsedDesc
      ((sortByLastUsedDesc (upsertEntry c o e p now hist)).take max
        ++ (sortByLastUsedDesc (upsertEntry c o e p now hist)).drop max) := by
    rw [List.take_append_drop]
    exact sortByLastUsedDesc_sorted _
  exact (List.pairwise_append.mp hs).2.2 r2 hr2 r hr

theorem sorted_updateCommandHistory (max : Nat) (hist : List CommandHistory)
    (c : String) (o e p : Option String) (now : Nat) :
    sortedByLastUsedDesc (updateCommandHistory max hist c o e p now) := by
  rw [updateCommandHistory_eq_take]
  exact List.Pairwise.sublist (List.take_sublist _ _) (sortByLastUsedDesc_sorted _)

theorem nodup_commandKeys_updateCommandHistory (max : Nat)
    {hist : List CommandHistory} (c : String) (o e p : Option String)
    (now : Nat) (h : (commandKeys hist).Nodup) :
    (commandKeys (updateCommandHistory max hist c o e p now)).Nodup := by
  rw [updateCommandHistory_eq_take]
  exact nodup_commandKeys_of_sublist (List.take_sublist _ _)
    (nodup_commandKeys_of_perm (sortByLastUsedDesc_perm _).symm
      (nodup_commandKeys_upsertEntry h))

theorem nodup_commandKeys_applyLedgerOp (max : Nat)
    {hist : List CommandHistory} (op : LedgerOp)
    (h : (commandKeys hist).Nodup) :
    (commandKeys (applyLedgerOp max hist op)).Nodup := by
  cases op with
  | upsert call =>
    exact nodup_commandKeys_updateCommandHistory max call.command call.output
      call.error call.executionPath call.now h
  | remove c =>
    exact nodup_commandKeys_of_sublist (List.filter_sublist _) h
  | clear => simp [applyLedgerOp, clearHistory, commandKeys_def]

theorem nodup_commandKeys_applyLedgerOps (max : Nat) (ops : List LedgerOp) :
    ∀ hist : List CommandHistory, (commandKeys hist).Nodup →
      (commandKeys (applyLedgerOps max hist ops)).Nodup := by
  induction ops with
  | nil => intro hist h; simpa [applyLedgerOps] using h
  | cons op rest ih =>
    intro hist h
    simpa [applyLedgerOps, List.foldl_cons] using
      ih (applyLedgerOp max hist op) (nodup_commandKeys_applyLedgerOp max op h)

/-! ### Claim theorems -/

/-- C1: for every starting ledger with at most `maxHistorySize` records and
every sequence of upsert calls, the ledger resulting after each upsert
(i.e. after every initial segment of the sequence) has at most
`maxHistorySize` records; and for any single upsert, the records dropped by
the truncation are exactly the tail of the sorted sequence past the bound,
each of them at most as recently used as every kept record. -/
theorem upsert_length_bounded_and_lru_eviction (max : Nat)
    (hist : List CommandHistory) (calls : List UpsertCall)
    (hlen : hist.length ≤ max) :
    (∀ pre suf : List UpsertCall, calls = pre ++ suf →
        (applyUpserts max hist pre).length ≤ max) ∧
    (∀ call : UpsertCall,
        (∀ r ∈ evictedByUpsert max hist call.command call.output call.error
              call.executionPath call.now,
          ∀ r2 ∈ applyUpsert max hist call, r.lastUsed ≤ r2.lastUsed) ∧
        applyUpsert max hist call
            ++ evictedByUpsert max hist call.command call.output call.error
                call.executionPath call.now
          = sortByLastUsedDesc (upsertEntry call.command call.output
              call.error call.executionPath call.now hist)) := by
  refine ⟨fun pre _ _ => length_applyUpserts_le max pre hist hlen, fun call => ⟨?_, ?_⟩⟩
  · intro r hr r2 hr2
    exact evicted_le_kept max hist call.command call.output call.error
      call.executionPath call.now r hr r2 hr2
  · show updateCommandHistory max hist call.command call.output call.error
        call.executionPath call.now ++ _ = _
    rw [updateCommandHistory_eq_take]
    exact List.take_append_drop max _

/-- C1 witness: a concrete run of two upserts against an initially empty
ledger with bound 1 stays within the bound. -/
theorem upsert_length_bounded_witness :
    ([] : List CommandHistory).length ≤ 1 ∧
    (applyUpserts 1 []
      [⟨"ls", some "out", none, none, 100⟩,
       ⟨"pwd", some "/", none, none, 200⟩]).length ≤ 1 := by
  refine ⟨by decide, ?_⟩
  exact (upsert_length_bounded_and_lru_eviction 1 []
    [⟨"ls", some "out", none, none, 100⟩, ⟨"pwd", some "/", none, none, 200⟩]
    (by decide)).1
    [⟨"ls", some "out", none, none, 100⟩, ⟨"pwd", some "/", none, none, 200⟩]
    [] rfl

/-- C2: starting from a ledger with pairwise-distinct command keys, after
any sequence of upsert, remove and clear mutations the resulting ledger
holds at most one record whose `command` field equals any given exact
(case-sensitive, untrimmed) string. -/
theorem ledger_ops_at_most_one_record_per_command (max : Nat)
    (hist : List CommandHistory) (ops : List LedgerOp) (c : String)
    (h : (commandKeys hist).Nodup) :
    (applyLedgerOps max hist ops).countP (fun r => r.command == c) ≤ 1 :=
  countP_command_le_one (nodup_commandKeys_applyLedgerOps max ops hist h) c

/-- A sample record used in concrete witnesses. -/
def sampleRecordLs : CommandHistory :=
  { command := "ls", lastUsed := 50, useCount := 1,
    output := none, error := none, executionPath := none }

/-- C2 witness: a concrete mixed sequence of operations from a singleton
ledger leaves at most one record for "ls". -/
theorem ledger_at_most_one_record_witness :
    (commandKeys [sampleRecordLs]).Nodup ∧
    (applyLedgerOps 3 [sampleRecordLs]
        [.upsert ⟨"ls", some "a", none, none, 100⟩,
         .upsert ⟨"pwd", some "/", none, none, 150⟩,
         .upsert ⟨"ls", some "b", none, none, 200⟩,
         .remove "pwd"]).countP (fun r => r.command == "ls") ≤ 1 := by
  refine ⟨by decide, ?_⟩
  exact ledger_ops_at_most_one_record_per_command 3 _ _ "ls" (by decide)

/-- A sample record used in concrete counterexamples. -/
def sampleRecordA : CommandHistory :=
  { command := "a", lastUsed := 100, useCount := 1,
    output := none, error := none, executionPath := none }

/-- C3 counterexample: with `maxHistorySize = 1`, upserting command "b" at
time 50 into the ledger `[("a", lastUsed 100)]` evicts the freshly inserted
record immediately - the resulting ledger is `[("a", ...)]` and contains no
record for "b" at all, refuting the unconditional claim that the resulting
ledger contains a record for the upserted command with `lastUsed = t`. -/
theorem upsert_record_presence_counterexample :
    updateCommandHistory 1 [sampleRecordA] "b" none none none 50
        = [sampleRecordA] ∧
    ∀ r ∈ updateCommandHistory 1 [sampleRecordA] "b" none none none 50,
      r.command ≠ "b" := by
  constructor
  · decide
  · decide

/-- C3 (amended): after `upsert(c, outcome, t)` the full resulting sequence
is always sorted by `lastUsed` descending; and provided the bound admits at
least one record and `t` is strictly newer than every record of the
starting ledger (the situation of a live `Date.now()` clock), the resulting
ledger contains a record for `c` with `lastUsed = t`. -/
theorem upsert_sorted_and_fresh_record_present (max : Nat)
    (hist : List CommandHistory) (c : String) (o e p : Option String)
    (t : Nat) :
    sortedByLastUsedDesc (updateCommandHistory max hist c o e p t) ∧
    (1 ≤ max → (∀ r ∈ hist, r.lastUsed < t) →
      ∃ r2 ∈ updateCommandHistory max hist c o e p t,
        r2.command = c ∧ r2.lastUsed = t) := by
  refine ⟨sorted_updateCommandHistory max hist c o e p t, ?_⟩
  intro hmax hall
  obtain ⟨rc, hrc_mem, hrc_c, hrc_t⟩ := exists_mem_upsertEntry c o e p t hist
  have hperm := sortByLastUsedDesc_perm (upsertEntry c o e p t hist)
  have hrcs : rc ∈ sortByLastUsedDesc (upsertEntry c o e p t hist) :=
    hperm.mem_iff.mpr hrc_mem
  cases hSL : sortByLastUsedDesc (upsertEntry c o e p t hist) with
  | nil => rw [hSL] at hrcs; cases hrcs
  | cons h0 tail =>
    rw [hSL] at hrcs
    have hsorted := sortByLastUsedDesc_sorted (upsertEntry c o e p t hist)
    rw [hSL] at hsorted
    rcases List.pairwise_cons.mp hsorted with ⟨hh0, _⟩
    have hh0mem : h0 ∈ upsertEntry c o e p t hist := by
      rw [hperm.symm.mem_iff, hSL]
      exact List.mem_cons_self _ _
    have hh0c : h0.command = c ∧ h0.lastUsed = t := by
      rcases mem_upsertEntry_cases hh0mem with hmem | hc2
      · exfalso
        have h1 : t ≤ h0.lastUsed := by
          rcases List.mem_cons.mp hrcs with rfl | htail
          · exact Nat.le_of_eq hrc_t.symm
          · have h2 : rc.lastUsed ≤ h0.lastUsed := hh0 rc htail
            rw [hrc_t] at h2
            exact h2
        exact Nat.lt_irrefl _ (Nat.lt_of_lt_of_le (hall h0 hmem) h1)
      · exact hc2
    refine ⟨h0, ?_, hh0c.1, hh0c.2⟩
    rw [updateCommandHistory_eq_take, hSL]
    cases max with
    | zero => exact absurd hmax (by decide)
    | succ m =>
      rw [List.take_succ_cons]
      exact List.mem_cons_self _ _

/-- C3 witness (for the amended theorem): upserting "b" at the strictly
newer time 200 into `[("a", lastUsed 100)]` with bound 1 does leave a
record for "b" with `lastUsed = 200`. -/
theorem upsert_fresh_record_present_witness :
    1 ≤ 1 ∧ (∀ r ∈ [sampleRecordA], r.lastUsed < 200) ∧
    ∃ r2 ∈ updateCommandHistory 1 [sampleRecordA] "b" none none none 200,
      r2.command = "b" ∧ r2.lastUsed = 200 := by
  refine ⟨by decide, by decide, ?_⟩
  exact (upsert_sorted_and_fresh_record_present 1 [sampleRecordA] "b"
    none none none 200).2 (by decide) (by decide)

/-- C4: under the ledger's unique-key invariant: when no record for `c`
exists, any record for `c` in the result is a fresh record with
`useCount = 1` carrying exactly the new outcome's fields; when a record `r`
for `c` exists, every record for `c` in the result is `r` with `useCount`
incremented by exactly 1 and `output`/`error`/`executionPath` overwritten
by (never merged with) the new outcome's values - optional fields absent
from the new outcome become absent - and, when the ledger is within its
bound, the updated record survives into the result. -/
theorem upsert_update_insert_semantics (max : Nat)
    (hist : List CommandHistory) (c : String) (o e p : Option String)
    (now : Nat) (hkeys : (commandKeys hist).Nodup) :
    ((∀ r ∈ hist, r.command ≠ c) →
      ∀ r2 ∈ updateCommandHistory max hist c o e p now, r2.command = c →
        r2 = { command := c, lastUsed := now, useCount := 1,
               output := o, error := e, executionPath := p }) ∧
    (∀ r ∈ hist, r.command = c →
      (∀ r2 ∈ updateCommandHistory max hist c o e p now, r2.command = c →
        r2 = { command := c, lastUsed := now, useCount := r.useCount + 1,
               output := o, error := e, executionPath := p }) ∧
      (hist.length ≤ max →
        ∃ r2 ∈ updateCommandHistory max hist c o e p now, r2.command = c)) := by
  have hmem_of : ∀ r2 ∈ updateCommandHistory max hist c o e p now,
      r2 ∈ upsertEntry c o e p now hist := by
    intro r2 h2
    rw [updateCommandHistory_eq_take] at h2
    exact (sortByLastUsedDesc_perm _).mem_iff.mp
      ((List.take_sublist _ _).subset h2)
  constructor
  · intro habs r2 h2 h2c
    exact upsertEntry_not_found_new habs r2 (hmem_of r2 h2) h2c
  · intro r hr hrc
    constructor
    · intro r2 h2 h2c
      exact upsertEntry_found_update hkeys hr hrc r2 (hmem_of r2 h2) h2c
    · intro hle
      obtain ⟨r2, h2, h2c, _⟩ := exists_mem_upsertEntry c o e p now hist
      refine ⟨r2, ?_, h2c⟩
      rw [updateCommandHistory_eq_take]
      have hlen : (sortByLastUsedDesc (upsertEntry c o e p now hist)).length
          ≤ max := by
        rw [(sortByLastUsedDesc_perm _).length_eq,
          upsertEntry_length_of_found ⟨r, hr, hrc⟩]
        exact hle
      rw [List.take_of_length_le hlen]
      exact (sortByLastUsedDesc_perm _).mem_iff.mpr h2

/-- C4 witness: re-upserting "ls" into a singleton ledger within the bound
leaves a surviving record for "ls". -/
theorem upsert_update_semantics_witness :
    (commandKeys [sampleRecordLs]).Nodup ∧
    ∃ r2 ∈ updateCommandHistory 50 [sampleRecordLs] "ls" (some "new")
        none none 200, r2.command = "ls" := by
  refine ⟨by decide, ?_⟩
  exact ((upsert_update_insert_semantics 50 [sampleRecordLs] "ls" (some "new")
    none none 200 (by decide)).2 sampleRecordLs (by decide) rfl).2 (by decide)

/-- C10: an upsert for command `c` never modifies any other record: every
record of the result with a different command is literally (all six fields
unchanged) a record of the starting ledger; conversely every starting
record with a different command either survives into the result or lies in
the evicted sorted tail, whose members are at most as recently used as
every kept record. -/
theorem upsert_frame_other_records (max : Nat) (hist : List CommandHistory)
    (c : String) (o e p : Option String) (now : Nat) :
    (∀ r2 ∈ updateCommandHistory max hist c o e p now, r2.command ≠ c →
      r2 ∈ hist) ∧
    (∀ r ∈ hist, r.command ≠ c →
      r ∈ updateCommandHistory max hist c o e p now ∨
        r ∈ evictedByUpsert max hist c o e p now) ∧
    (∀ r ∈ evictedByUpsert max hist c o e p now,
      ∀ r2 ∈ updateCommandHistory max hist c o e p now,
        r.lastUsed ≤ r2.lastUsed) := by
  refine ⟨?_, ?_, evicted_le_kept max hist c o e p now⟩
  · intro r2 h2 h2c
    rw [updateCommandHistory_eq_take] at h2
    exact mem_of_mem_upsertEntry_ne
      ((sortByLastUsedDesc_perm _).mem_iff.mp
        ((List.take_sublist _ _).subset h2)) h2c
  · intro r hr hrc
    have hmem : r ∈ sortByLastUsedDesc (upsertEntry c o e p now hist) :=
      (sortByLastUsedDesc_perm _).mem_iff.mpr (mem_upsertEntry_of_ne hr hrc)
    rw [← List.take_append_drop max
      (sortByLastUsedDesc (upsertEntry c o e p now hist))] at hmem
    rcases List.mem_append.mp hmem with h1 | h1
    · left
      rw [updateCommandHistory_eq_take]
      exact h1
    · right
      exact h1

/-- C10 witness: the untouched record for "a" survives an upsert of "b"
(within the bound) or lands in the evicted tail. -/
theorem upsert_frame_witness :
    sampleRecordA.command ≠ "b" ∧
    (sampleRecordA ∈ updateCommandHistory 2 [sampleRecordA] "b" none none
        none 200 ∨
      sampleRecordA ∈ evictedByUpsert 2 [sampleRecordA] "b" none none
        none 200) := by
  refine ⟨by decide, ?_⟩
  exact (upsert_frame_other_records 2 [sampleRecordA] "b" none none
    none 200).2.1 sampleRecordA (by decide) (by decide)

/-- C5: outcome classification of `executeCommand`: a rejected invocation
(non-zero exit or throw) yields `succeeded = false` with the thrown error's
message - which, per the modelled exec layer, prefers stderr content when
present over the generic failure description - as the error; a zero exit
with non-empty stderr yields `succeeded = true` carrying both streams; a
zero exit with empty stderr yields `succeeded = true` with the stdout and
an empty (content-free) stderr string. -/
theorem execute_outcome_classification (finderPath : Option String)
    (stdoutText stderrText generic procStderr : String) (isTimeout : Bool) :
    ((classifyExecResult finderPath
        (.rejectedError isTimeout
          (processErrorText generic procStderr))).succeeded = false ∧
      (classifyExecResult finderPath
        (.rejectedError isTimeout (processErrorText generic procStderr))).error
          = some (processErrorText generic procStderr) ∧
      (procStderr ≠ "" →
        (classifyExecResult finderPath
          (.rejectedError isTimeout
            (processErrorText generic procStderr))).error = some procStderr) ∧
      (procStderr = "" →
        (classifyExecResult finderPath
          (.rejectedError isTimeout
            (processErrorText generic procStderr))).error = some generic)) ∧
    (stderrText ≠ "" →
      classifyExecResult finderPath (.resolved stdoutText stderrText)
        = { succeeded := true, output := some stdoutText,
            error := some stderrText,
            executionPath := jsStringOrNone finderPath }) ∧
    (classifyExecResult finderPath (.resolved stdoutText "")
        = { succeeded := true, output := some stdoutText, error := some "",
            executionPath := jsStringOrNone finderPath }) := by
  refine ⟨⟨rfl, rfl, ?_, ?_⟩, fun _ => rfl, rfl⟩
  · intro h
    simp [classifyExecResult, processErrorText, h]
  · intro h
    simp [classifyExecResult, processErrorText, h]

/-- C5 witness: a zero exit with stderr "warn" yields a succeeded outcome
carrying both streams. -/
theorem execute_outcome_classification_witness :
    ("warn" : String) ≠ "" ∧
    classifyExecResult none (.resolved "out" "warn")
      = { succeeded := true, output := some "out", error := some "warn",
          executionPath := none } := by
  refine ⟨by decide, ?_⟩
  exact (execute_outcome_classification none "out" "warn" "Command failed"
    "err" false).2.1 (by decide)

/-- C6 counterexample: a rejection caused by the 30-second timeout and an
ordinary non-zero-exit rejection with the same error message produce
bitwise-identical outcomes - the failed outcome carries no marker
distinguishing a timeout, refuting the claimed distinguishable timeout
marker. -/
theorem timeout_marker_counterexample :
    classifyExecResult none (.rejectedError true "Command failed: sleep 60")
      = classifyExecResult none
          (.rejectedError false "Command failed: sleep 60") ∧
    (classifyExecResult none
      (.rejectedError true "Command failed: sleep 60")).succeeded = false :=
  ⟨rfl, rfl⟩

/-- C6 (amended): the 30-second bound (`timeout: 30000`) is handed to the
exec layer, which terminates the process and rejects; the timed-out
invocation then surfaces as a failed outcome carrying the thrown error's
message - through the same catch path as every other rejection, with no
marker distinguishing timeouts from ordinary non-zero-exit failures. -/
theorem timeout_surfaced_as_plain_failure (finderPath : Option String)
    (message : String) :
    executeTimeoutMillis = 30000 ∧
    classifyExecResult finderPath (.rejectedError true message)
      = { succeeded := false, output := none, error := some message,
          executionPath := none } ∧
    classifyExecResult finderPath (.rejectedError true message)
      = classifyExecResult finderPath (.rejectedError false message) :=
  ⟨rfl, rfl, rfl⟩

/-- C7: the composed command line follows the spec's case analysis: a
non-empty (after trimming) `shellProfile` yields the `source <profile> && `
form; otherwise a `defaultShell` containing "zsh" yields the
failure-suppressed `source ~/.zshrc` followed by `; `; otherwise one
containing "bash" yields the failure-suppressed
`~/.bash_profile`-else-`~/.bashrc` chain followed by `; `; otherwise the
raw command; and a non-empty (after trimming) inferred directory prepends a
`cd "<dir>" && ` step in front of all of the above. -/
theorem final_command_composition (prefs : Preferences) (command : String)
    (dir : String) :
    (jsTrim prefs.shellProfile ≠ "" →
      buildFinalCommand prefs command none
        = "source " ++ prefs.shellProfile ++ " && " ++ command) ∧
    (jsTrim prefs.shellProfile = "" →
      strIncludes prefs.defaultShell "zsh" = true →
      buildFinalCommand prefs command none
        = "source ~/.zshrc 2>/dev/null; " ++ command) ∧
    (jsTrim prefs.shellProfile = "" →
      strIncludes prefs.defaultShell "zsh" = false →
      strIncludes prefs.defaultShell "bash" = true →
      buildFinalCommand prefs command none
        = "source ~/.bash_profile 2>/dev/null || source ~/.bashrc 2>/dev/null; "
            ++ command) ∧
    (jsTrim prefs.shellProfile = "" →
      strIncludes prefs.defaultShell "zsh" = false →
      strIncludes prefs.defaultShell "bash" = false →
      buildFinalCommand prefs command none = command) ∧
    (jsTrim dir ≠ "" →
      buildFinalCommand prefs command (some dir)
        = "cd \"" ++ dir ++ "\" && " ++ buildFinalCommand prefs command none) ∧
    (jsTrim dir = "" →
      buildFinalCommand prefs command (some dir)
        = buildFinalCommand prefs command none) := by
  refine ⟨?_, ?_, ?_, ?_, ?_, ?_⟩
  · intro h1
    simp [buildFinalCommand, shellInitCommand, h1]
  · intro h1 h2
    simp [buildFinalCommand, shellInitCommand, h1, h2]
  · intro h1 h2 h3
    simp [buildFinalCommand, shellInitCommand, h1, h2, h3]
  · intro h1 h2 h3
    simp [buildFinalCommand, shellInitCommand, h1, h2, h3]
  · intro h1
    simp [buildFinalCommand, h1]
  · intro h1
    simp [buildFinalCommand, h1]

/-- The default preferences of the component state (lines 31-36). -/
def samplePrefs : Preferences :=
  { maxHistorySize := 50, defaultShell := "/bin/zsh", shellProfile := "",
    debugMode := false }

/-- C7 witness: under the default zsh shell with no profile set and Finder
directory "/tmp", the composed line is the cd step followed by the zshrc
initialization. -/
theorem final_command_composition_witness :
    jsTrim "/tmp" ≠ "" ∧ jsTrim samplePrefs.shellProfile = "" ∧
    strIncludes samplePrefs.defaultShell "zsh" = true ∧
    buildFinalCommand samplePrefs "ls" (some "/tmp")
      = "cd \"/tmp\" && source ~/.zshrc 2>/dev/null; ls" := by
  refine ⟨by decide, by decide, by decide, ?_⟩
  have h := final_command_composition samplePrefs "ls" "/tmp"
  rw [h.2.2.2.2.1 (by decide), h.2.1 (by decide) (by decide)]
  decide

/-- The behaviour of the real `JSON.parse` on the stored string "{}": it
succeeds and returns the empty object (and throws on anything else, which
is all this concrete instantiation needs). -/
def jsonParseOnEmptyObject : String → Option JsonValue :=
  fun raw => if raw = "{}" then some (JsonValue.obj []) else none

/-- C8 counterexample: the stored value "{}" is corrupt - valid JSON, but
not an array of records - yet `JSON.parse` succeeds on it, and line 57
installs the parsed empty object verbatim as the ledger: `load` does not
return an empty sequence (nor any record sequence) for this corrupt value,
refuting the claim that every corrupt persisted value loads as an empty
sequence. -/
theorem load_wrong_shape_counterexample :
    loadCommandHistory jsonParseOnEmptyObject (some "{}")
        = JsonValue.obj [] ∧
    JsonValue.obj [] ≠ JsonValue.arr [] :=
  ⟨rfl, fun h => JsonValue.noConfusion h⟩

/-- C8 (amended): `load` never raises to its caller, and a missing stored
value, an empty (falsy) stored string, or a stored string on which
`JSON.parse` throws (invalid JSON) all yield the initial empty ledger; but
when the parse succeeds the parsed value is installed verbatim, whatever
its shape - a corrupt value that happens to be valid JSON of the wrong
shape is not replaced by an empty sequence. -/
theorem load_empty_on_missing_or_throw
    (parseJson : String → Option JsonValue) (stored : Option String) :
    (stored = none → loadCommandHistory parseJson stored = JsonValue.arr []) ∧
    (∀ raw, stored = some raw → raw = "" →
      loadCommandHistory parseJson stored = JsonValue.arr []) ∧
    (∀ raw, stored = some raw → parseJson raw = none →
      loadCommandHistory parseJson stored = JsonValue.arr []) ∧
    (∀ raw v, stored = some raw → raw ≠ "" → parseJson raw = some v →
      loadCommandHistory parseJson stored = v) := by
  refine ⟨?_, ?_, ?_, ?_⟩
  · rintro rfl
    rfl
  · rintro raw rfl hraw
    simp [loadCommandHistory, hraw]
  · rintro raw rfl hparse
    by_cases hraw : raw = ""
    · simp [loadCommandHistory, hraw]
    · simp [loadCommandHistory, hraw, hparse]
  · rintro raw v rfl hraw hparse
    simp [loadCommandHistory, hraw, hparse]

/-- C8 witness (for the amended theorem): a stored value on which the
parse throws loads as the empty ledger. -/
theorem load_empty_on_missing_or_throw_witness :
    loadCommandHistory (fun _ => none) (some "corrupt") = JsonValue.arr [] :=
  (load_empty_on_missing_or_throw (fun _ => none)
    (some "corrupt")).2.2.1 "corrupt" rfl rfl

/-- C9 counterexample: deleting "ls" from an empty ledger finds no record,
yet the only completion signal the code produces - the unconditional
success toast - still reports a deletion; the claimed "returns true iff a
record was found" boolean does not exist in the code and the reported
indicator is positive even when nothing was found. -/
theorem remove_found_indicator_counterexample :
    deleteCommandReportedDeleted [] "ls" = true ∧
    (∀ r ∈ ([] : List CommandHistory), r.command ≠ "ls") :=
  ⟨rfl, by decide⟩

/-- C9 (amended): the confirmed branch of `deleteCommand` removes exactly
the records whose command equals the given string: the result is a
subsequence of the ledger (all other records kept in place and in order),
contains no record for the command, and retains every other record; the
code returns no found/not-found boolean and reports success
unconditionally. -/
theorem remove_deletes_matching_records (hist : List CommandHistory)
    (c : String) :
    deleteCommand hist c <+ hist ∧
    (∀ r ∈ deleteCommand hist c, r.command ≠ c) ∧
    (∀ r ∈ hist, r.command ≠ c → r ∈ deleteCommand hist c) ∧
    deleteCommandReportedDeleted hist c = true := by
  refine ⟨List.filter_sublist _, ?_, ?_, rfl⟩
  · intro r hr
    have h2 := (List.mem_filter.mp hr).2
    simpa using h2
  · intro r hr hne
    exact List.mem_filter.mpr ⟨hr, by simpa using hne⟩

/-- C9 witness (for the amended theorem): a record for a different command
survives the deletion. -/
theorem remove_keeps_other_records_witness :
    sampleRecordA.command ≠ "b" ∧
    sampleRecordA ∈ deleteCommand [sampleRecordA] "b" := by
  refine ⟨by decide, ?_⟩
  exact (remove_deletes_matching_records [sampleRecordA] "b").2.2.1
    sampleRecordA (by decide) (by decide)

end Commandor
